import Mathlib

/-!
Verification of the coordinate-translation facade (`RopeText` in
`lapce-core/src/buffer/rope_text.rs`) over a shallow embedding.

A document is a `List Char`; byte offsets are UTF-8 byte indexes computed
with `len_utf8`.  The buffer/rope, the word-boundary scanner and the
UTF-8/UTF-16 conversion primitives are external collaborators of the
facade (spec sections 1 and 6); they are modelled from the spec and each
such definition is marked `Modelled from the spec:`.  Everything else is
translated directly from the Rust source.
-/

namespace Lapce

/-- UTF-8 byte length of one character, following the definition of
Rust's `char::len_utf8` (1 below U+0080, 2 below U+0800, 3 below
U+10000, otherwise 4). -/
def len_utf8 (c : Char) : Nat :=
  if c.toNat < 0x80 then 1
  else if c.toNat < 0x800 then 2
  else if c.toNat < 0x10000 then 3
  else 4

/-- UTF-16 code-unit length of one character, following Rust's
`char::len_utf16` (1 below U+10000, otherwise a surrogate pair of 2). -/
def len_utf16 (c : Char) : Nat :=
  if c.toNat < 0x10000 then 1 else 2

/-- Total UTF-8 byte length of a document. -/
def byteLen : List Char → Nat
  | [] => 0
  | c :: cs => len_utf8 c + byteLen cs

/-- Total UTF-16 code-unit length of a sequence of characters. -/
def utf16Len : List Char → Nat
  | [] => 0
  | c :: cs => len_utf16 c + utf16Len cs

/-- Number of newline characters in a document. -/
def nlCount : List Char → Nat
  | [] => 0
  | c :: cs => (if c = '\n' then 1 else 0) + nlCount cs

/-- Modelled from the spec: the buffer's
`nearest-previous-codepoint-boundary` capability (spec section 6); returns
the largest UTF-8 codepoint boundary that is at or before the given byte
offset (capped at the total length). -/
def floorBoundary : List Char → Nat → Nat
  | [], _ => 0
  | c :: cs, o => if len_utf8 c ≤ o then len_utf8 c + floorBoundary cs (o - len_utf8 c) else 0

/-- Modelled from the spec: the buffer's `owning-line-of(offset)`
capability (spec section 6); the number of line breaks that are complete
at or before the given byte offset. -/
def rope_line_of_offset : List Char → Nat → Nat
  | [], _ => 0
  | c :: cs, o =>
    if len_utf8 c ≤ o then (if c = '\n' then 1 else 0) + rope_line_of_offset cs (o - len_utf8 c)
    else 0

/-- Modelled from the spec: the value of the buffer's
`start-offset-of-line(line)` capability (spec section 6) on its valid
domain — lines up to one past the last line — namely the byte offset
just after the `line`-th newline (one past the last line yields the
total length).  The capability itself is partial
(`rope_offset_of_line_checked` below); this value function is only ever
consumed at clamped, in-domain lines. -/
def rope_offset_of_line : Nat → List Char → Nat
  | 0, _ => 0
  | _ + 1, [] => 0
  | n + 1, c :: cs =>
    len_utf8 c + (if c = '\n' then rope_offset_of_line n cs else rope_offset_of_line (n + 1) cs)

/-- Modelled from the spec: the buffer's `start-offset-of-line(line)`
capability as actually consumed (spec sections 3, 4, 6): it is only
valid for lines up to one past the last line (the newline count plus
one), and a lookup beyond that fails — the real rope panics there,
modelled as `none`.  Overflow clamping is the facade's per-operation
policy, which is why its wrappers clamp to `last_line + 1` before every
lookup they want total. -/
def rope_offset_of_line_checked (line : Nat) (doc : List Char) : Option Nat :=
  if line ≤ nlCount doc + 1 then some (rope_offset_of_line line doc) else none

/-- Modelled from the spec: the buffer's `slice-to-string(byte range)`
capability (spec section 6); the characters of the byte range
`[start, stop)`. -/
def sliceBytes : List Char → Nat → Nat → List Char
  | [], _, _ => []
  | c :: cs, start, stop =>
    if len_utf8 c ≤ start then sliceBytes cs (start - len_utf8 c) (stop - len_utf8 c)
    else if len_utf8 c ≤ stop then c :: sliceBytes cs 0 (stop - len_utf8 c)
    else []

/-- Modelled from the spec: `Rope::at_or_prev_codepoint_boundary`, the
optional nearest-previous-codepoint-boundary lookup (spec section 6). -/
def at_or_prev_codepoint_boundary (doc : List Char) (offset : Nat) : Option Nat :=
  some (floorBoundary doc offset)

/-- Modelled from the spec: the grapheme cursor is an external trusted
capability (spec sections 6 and 9).  This instantiation steps to the
previous codepoint boundary, which coincides with grapheme-cluster
stepping on the ASCII documents used in the spec's concrete scenarios. -/
def prevCodepointBoundary (doc : List Char) (o : Nat) : Option Nat :=
  if o = 0 then none else some (floorBoundary doc (o - 1))

/-- Rust `&str::ends_with` on character lists: `endsWith l s` is true
exactly when `s` is a suffix of `l`. -/
def endsWith (l s : List Char) : Bool :=
  decide (l.drop (l.length - s.length) = s)

/-- LSP protocol position (`lsp_types::Position`): 0-based line and UTF-16
column, both stored as 32-bit unsigned integers (modelled as naturals that
are always reduced modulo 2^32 at construction). -/
structure Position where
  line : Nat
  character : Nat
deriving DecidableEq, Repr

/-- Source `RopeText::len`. -/
def len (doc : List Char) : Nat := byteLen doc

/-- Source `RopeText::is_empty`. -/
def is_empty (doc : List Char) : Bool := len doc = 0

/-- Source `RopeText::line_of_offset`: clamp the offset to the length,
snap it back to a codepoint boundary, and ask the rope for the owning
line. -/
def line_of_offset (doc : List Char) (offset : Nat) : Nat :=
  let offset := min offset (len doc)
  let offset := (at_or_prev_codepoint_boundary doc offset).getD offset
  rope_line_of_offset doc offset

/-- Source `RopeText::last_line`. -/
def last_line (doc : List Char) : Nat :=
  line_of_offset doc (len doc)

/-- Source `RopeText::offset_of_line`: clamps the line to
`last_line + 1` and asks the rope for the line's start offset. -/
def offset_of_line (doc : List Char) (line : Nat) : Nat :=
  rope_offset_of_line (min line (last_line doc + 1)) doc

/-- Source `RopeText::slice_to_cow`: clamps both range endpoints to the
length and slices. -/
def slice_to_cow (doc : List Char) (start stop : Nat) : List Char :=
  sliceBytes doc (min start (len doc)) (min stop (len doc))

/-- Source `RopeText::line_content`: the rope slice between the clamped
start offsets of `line` and `line + 1`. -/
def line_content (doc : List Char) (line : Nat) : List Char :=
  sliceBytes doc (offset_of_line doc line) (offset_of_line doc (line + 1))

/-- Source `RopeText::offset_to_line_col`. -/
def offset_to_line_col (doc : List Char) (offset : Nat) : Nat × Nat :=
  let offset := min offset (len doc)
  let line := line_of_offset doc offset
  let line_start := offset_of_line doc line
  if offset = line_start then (line, 0) else (line, offset - line_start)

/-- The character loop of `RopeText::offset_of_line_col`: `pos` is the
accumulated byte length inside the line, `offset` the current absolute
offset. -/
def olcGo : List Char → Nat → Nat → Nat → Nat
  | [], _, offset, _ => offset
  | c :: cs, pos, offset, col =>
    if c = '\n' then offset
    else if col < pos + len_utf8 c then offset
    else olcGo cs (pos + len_utf8 c) (offset + len_utf8 c) col

/-- Source `RopeText::offset_of_line_col`: walk the characters of the
line accumulating UTF-8 byte lengths. -/
def offset_of_line_col (doc : List Char) (line col : Nat) : Nat :=
  olcGo (slice_to_cow doc (offset_of_line doc line) (offset_of_line doc (line + 1)))
    0 (offset_of_line doc line) col

/-- The counting loop of `RopeText::prev_grapheme_offset`: `pg` is the
grapheme cursor's previous-boundary capability, `new` the last offset
successfully reached. -/
def pgoGo (pg : Nat → Option Nat) (limit : Nat) : Nat → Nat → Nat
  | 0, new => new
  | count + 1, new =>
    match pg new with
    | some p => if p < limit then new else pgoGo pg limit count p
    | none => new

/-- Source `RopeText::prev_grapheme_offset`: clamps the offset and steps
back up to `count` grapheme boundaries, stopping before crossing
`limit`. -/
def prev_grapheme_offset (pg : Nat → Option Nat) (doc : List Char)
    (offset count limit : Nat) : Nat :=
  pgoGo pg limit count (min offset (len doc))

/-- Source `RopeText::line_end_offset`: start offset of the next line,
with a trailing CRLF or LF trimmed, and (for `caret = false` on a
non-empty line) one grapheme step back. -/
def line_end_offset (pg : Nat → Option Nat) (doc : List Char)
    (line : Nat) (caret : Bool) : Nat :=
  let offset := offset_of_line doc (line + 1)
  let lc := line_content doc line
  let trimmed :=
    if endsWith lc ['\r', '\n'] then (offset - 2, lc.dropLast.dropLast)
    else if endsWith lc ['\n'] then (offset - 1, lc.dropLast)
    else (offset, lc)
  if !caret && !trimmed.2.isEmpty then prev_grapheme_offset pg doc trimmed.1 1 0
  else trimmed.1

/-- Source `RopeText::offset_line_end`. -/
def offset_line_end (pg : Nat → Option Nat) (doc : List Char)
    (offset : Nat) (caret : Bool) : Nat :=
  line_end_offset pg doc (line_of_offset doc offset) caret

/-- Modelled from the spec: the word/whitespace boundary scanner's walk
(spec section 6), advancing over blank characters.  Space and tab count
as blank. -/
def nbGo : List Char → Nat → Nat
  | [], pos => pos
  | c :: cs, pos => if c = ' ' || c = '\t' then nbGo cs (pos + len_utf8 c) else pos

/-- Modelled from the spec: `WordCursor::next_non_blank_char`, the
external boundary scanner locating the next non-blank character from a
start offset (spec section 6). -/
def next_non_blank_char (doc : List Char) (start : Nat) : Nat :=
  nbGo (sliceBytes doc start (byteLen doc)) start

/-- Source `RopeText::first_non_blank_character_on_line`: clamps lines
past `last_line + 1` down to `last_line`, then delegates to the boundary
scanner at the line's start offset. -/
def first_non_blank_character_on_line (doc : List Char) (line : Nat) : Nat :=
  let last := last_line doc
  let line := if last + 1 < line then last else line
  next_non_blank_char doc (rope_offset_of_line line doc)

/-- Source `RopeText::indent_on_line`: the text between the line's start
and the next non-blank character.  Unlike the facade's other operations
it passes the line to the rope's start-offset-of-line without clamping,
so a line past `last_line + 1` hits the lookup's invalid region and the
operation fails (panics in the real rope), modelled as `none`. -/
def indent_on_line (doc : List Char) (line : Nat) : Option (List Char) :=
  match rope_offset_of_line_checked line doc with
  | none => none
  | some line_start_offset =>
      some (sliceBytes doc line_start_offset (next_non_blank_char doc line_start_offset))

/-- Rust `str::char_indices` on a chunk: (relative byte offset,
character) pairs, offsets starting at `pos`. -/
def strGo : Nat → List Char → List (Nat × Char)
  | _, [] => []
  | pos, c :: cs => (pos, c) :: strGo (pos + len_utf8 c) cs

/-- Rust `str::char_indices`, offsets starting at 0. -/
def strCharIndices (s : List Char) : List (Nat × Char) :=
  strGo 0 s

/-- The per-item shift of `CharIndicesJoin::next`: every pair of the
current chunk is shifted by the base accumulated from previous chunks. -/
def emitChunk (chunk : List (Nat × Char)) (base : Nat) : List (Nat × Char) :=
  chunk.map (fun p => (base + p.1, p.2))

/-- The `latest_base` bookkeeping of `CharIndicesJoin::next`: each
emitted pair `(off, ch)` sets `latest_base := off + len_utf8 ch`; an
empty chunk leaves it unchanged. -/
def advanceLatest (emitted : List (Nat × Char)) (latest : Nat) : Nat :=
  emitted.foldl (fun _ p => p.1 + len_utf8 p.2) latest

/-- Functional model of the `CharIndicesJoin` iterator: drains each inner
chunk iterator in turn, setting `current_base := latest_base` when a new
chunk is pulled, and terminates when the outer iterator is exhausted. -/
def joinAll : List (List (Nat × Char)) → Nat → List (Nat × Char)
  | [], _ => []
  | chunk :: rest, latest =>
    let emitted := emitChunk chunk latest
    emitted ++ joinAll rest (advanceLatest emitted latest)

/-- Modelled from the spec: the buffer's contiguous-chunk iteration over
a byte range (spec section 6).  The internal chunking is unobservable;
it is modelled as a single chunk, and independence from the chunking is
proved separately. -/
def iter_chunks (doc : List Char) (start stop : Nat) : List (List Char) :=
  [slice_to_cow doc start stop]

/-- Source `RopeText::char_indices_iter`: joins the per-chunk
`char_indices` streams of the range with `CharIndicesJoin` (initial
bases 0). -/
def char_indices_iter (doc : List Char) (start stop : Nat) : List (Nat × Char) :=
  joinAll ((iter_chunks doc start stop).map strCharIndices) 0

/-- Modelled from the spec: the byte-column to UTF-16-column conversion
primitive (spec section 6): total UTF-16 length of the characters of the
stream that start before byte column `col`. -/
def offset_utf8_to_utf16 : List (Nat × Char) → Nat → Nat
  | [], _ => 0
  | (off, c) :: rest, col =>
    if off < col then len_utf16 c + offset_utf8_to_utf16 rest col else 0

/-- The accumulating walk of the UTF-16-column to byte-column
conversion. -/
def u16Go : List (Nat × Char) → Nat → Nat → Nat → Nat
  | [], _, _, u8 => u8
  | (_, c) :: rest, n, u16, u8 =>
    if n ≤ u16 then u8 else u16Go rest n (u16 + len_utf16 c) (u8 + len_utf8 c)

/-- Modelled from the spec: the UTF-16-column to byte-column conversion
primitive (spec section 6): consume characters of the stream while the
accumulated UTF-16 length is below `n`, returning the accumulated UTF-8
length. -/
def offset_utf16_to_utf8 (stream : List (Nat × Char)) (n : Nat) : Nat :=
  u16Go stream n 0 0

/-- Source `RopeText::offset_to_position`: line plus UTF-16 column, both
cast to `u32`. -/
def offset_to_position (doc : List Char) (offset : Nat) : Position :=
  let lc := offset_to_line_col doc offset
  let line_offset := offset_of_line doc lc.1
  let utf16_col := offset_utf8_to_utf16 (char_indices_iter doc line_offset (len doc)) lc.2
  ⟨lc.1 % 2 ^ 32, utf16_col % 2 ^ 32⟩

/-- Source `RopeText::position_to_line_col`. -/
def position_to_line_col (doc : List Char) (pos : Position) : Nat × Nat :=
  let line := pos.line
  let line_offset := offset_of_line doc line
  let column := offset_utf16_to_utf8 (char_indices_iter doc line_offset (len doc)) pos.character
  (line, column)

/-- Source `RopeText::offset_of_position`. -/
def offset_of_position (doc : List Char) (pos : Position) : Nat :=
  let lc := position_to_line_col doc pos
  offset_of_line_col doc lc.1 lc.2

/-- A byte offset is valid when it lies on a codepoint boundary inside
the document, i.e. it is a fixed point of the boundary snap. -/
def IsBoundary (doc : List Char) (o : Nat) : Prop :=
  floorBoundary doc o = o

instance (doc : List Char) (o : Nat) : Decidable (IsBoundary doc o) :=
  inferInstanceAs (Decidable (floorBoundary doc o = o))

/-- Concrete document of the spec's scenarios: "hello\nworld". -/
def docHelloWorld : List Char :=
  ['h', 'e', 'l', 'l', 'o', '\n', 'w', 'o', 'r', 'l', 'd']

/-- Concrete document of the spec's scenarios: "abc def ghi". -/
def docAbcSpaced : List Char :=
  ['a', 'b', 'c', ' ', 'd', 'e', 'f', ' ', 'g', 'h', 'i']

/-- Concrete document of the spec's scenarios: "abc\ndef\nghi". -/
def docAbcLines : List Char :=
  ['a', 'b', 'c', '\n', 'd', 'e', 'f', '\n', 'g', 'h', 'i']

/-- A document with 2^32 lines, exercising the `u32` casts of the
protocol position. -/
def hugeDoc : List Char :=
  List.replicate (2 ^ 32) '\n'

/-- Spec wording (claim C4): one backward step of the grapheme walk,
accepting a boundary exactly at `limit` and refusing one below it
(`limit` is exclusive). -/
def specStepOnce (pg : Nat → Option Nat) (limit o : Nat) : Option Nat :=
  match pg o with
  | some p => if limit ≤ p then some p else none
  | none => none

/-- Spec wording (claim C4): iterate the accepted backward steps,
returning the last offset reached as soon as a step is refused or no
previous boundary exists. -/
def specPgoGo (pg : Nat → Option Nat) (limit : Nat) : Nat → Nat → Nat
  | 0, o => o
  | count + 1, o =>
    match specStepOnce pg limit o with
    | some p => specPgoGo pg limit count p
    | none => o

/-- Spec wording (claim C4): `prevGraphemeOffset` clamps the offset to
the document and steps back up to `count` accepted boundaries. -/
def spec_prev_grapheme_offset (pg : Nat → Option Nat) (doc : List Char)
    (offset count limit : Nat) : Nat :=
  specPgoGo pg limit count (min offset (len doc))

/-- Spec wording (claim C7): the longest prefix of the line's characters
that contains no newline and whose accumulated UTF-8 length stays within
`col`. -/
def specColWalk : List Char → Nat → List Char
  | [], _ => []
  | c :: cs, col =>
    if c = '\n' then []
    else if col < len_utf8 c then []
    else c :: specColWalk cs (col - len_utf8 c)

/-- Spec wording (claim C7): `lineColumnToOffset` returns the line's
start offset advanced by the byte length of the walked prefix (the
line's end offset when the line is exhausted, the newline's offset when
one is reached). -/
def spec_offset_of_line_col (doc : List Char) (line col : Nat) : Nat :=
  offset_of_line doc line +
    byteLen (specColWalk
      (slice_to_cow doc (offset_of_line doc line) (offset_of_line doc (line + 1))) col)

/-- Spec wording (claim C3): `lineEndOffset` is the offset at the end of
the line's content with a trailing CRLF (2 bytes) or LF (1 byte) trimmed
off, and, when `caret` is false and the trimmed line is non-empty, stepped
back exactly one grapheme cluster from that trimmed end. -/
def spec_line_end_offset (pg : Nat → Option Nat) (doc : List Char)
    (line : Nat) (caret : Bool) : Nat :=
  let lc := line_content doc line
  let trimmed :=
    if endsWith lc ['\r', '\n'] then lc.dropLast.dropLast
    else if endsWith lc ['\n'] then lc.dropLast
    else lc
  let off := offset_of_line doc line + byteLen trimmed
  if !caret && !trimmed.isEmpty then (pg off).getD off else off

theorem len_utf8_pos (c : Char) : 1 ≤ len_utf8 c := by
  unfold len_utf8; split_ifs <;> omega

theorem len_utf16_pos (c : Char) : 1 ≤ len_utf16 c := by
  unfold len_utf16; split_ifs <;> omega

theorem len_utf16_le_len_utf8 (c : Char) : len_utf16 c ≤ len_utf8 c := by
  unfold len_utf8 len_utf16; split_ifs <;> omega

@[simp] theorem byteLen_nil : byteLen [] = 0 := rfl

@[simp] theorem byteLen_cons (c : Char) (cs : List Char) :
    byteLen (c :: cs) = len_utf8 c + byteLen cs := rfl

theorem byteLen_append (a b : List Char) :
    byteLen (a ++ b) = byteLen a + byteLen b := by
  induction a with
  | nil => simp
  | cons c cs ih => simp [ih, Nat.add_assoc]

theorem utf16Len_le_byteLen (l : List Char) : utf16Len l ≤ byteLen l := by
  induction l with
  | nil => simp [utf16Len]
  | cons c cs ih =>
      simpa [utf16Len] using Nat.add_le_add (len_utf16_le_len_utf8 c) ih

theorem length_le_byteLen (l : List Char) : l.length ≤ byteLen l := by
  induction l with
  | nil => simp
  | cons c cs ih =>
      simpa [Nat.add_comm] using Nat.add_le_add (len_utf8_pos c) ih

@[simp] theorem nlCount_nil : nlCount [] = 0 := rfl

@[simp] theorem nlCount_cons (c : Char) (cs : List Char) :
    nlCount (c :: cs) = (if c = '\n' then 1 else 0) + nlCount cs := rfl

theorem nlCount_append (a b : List Char) :
    nlCount (a ++ b) = nlCount a + nlCount b := by
  induction a with
  | nil => simp
  | cons c cs ih => simp [ih, Nat.add_assoc]

theorem nlCount_le_length (l : List Char) : nlCount l ≤ l.length := by
  induction l with
  | nil => simp
  | cons c cs ih =>
      simp only [nlCount_cons, List.length_cons]
      split_ifs <;> omega

theorem nlCount_eq_zero (l : List Char) (h : '\n' ∉ l) : nlCount l = 0 := by
  induction l with
  | nil => rfl
  | cons c cs ih =>
      have hc : ¬ c = '\n' := fun hc => h (hc ▸ List.mem_cons_self c cs)
      simp [hc, ih (fun hm => h (List.mem_cons_of_mem c hm))]

theorem floorBoundary_le (doc : List Char) (o : Nat) :
    floorBoundary doc o ≤ byteLen doc := by
  induction doc generalizing o with
  | nil => simp [floorBoundary]
  | cons c cs ih =>
      unfold floorBoundary
      split
      · exact Nat.add_le_add_left (ih _) _
      · simp

theorem floorBoundary_le_self (doc : List Char) (o : Nat) :
    floorBoundary doc o ≤ o := by
  induction doc generalizing o with
  | nil => simp [floorBoundary]
  | cons c cs ih =>
      unfold floorBoundary
      split
      · next h => have := ih (o - len_utf8 c); omega
      · omega

theorem floorBoundary_split (doc : List Char) (o : Nat) :
    ∃ k, k ≤ doc.length ∧ floorBoundary doc o = byteLen (doc.take k) := by
  induction doc generalizing o with
  | nil => exact ⟨0, by simp, by simp [floorBoundary]⟩
  | cons c cs ih =>
      by_cases h : len_utf8 c ≤ o
      · obtain ⟨k, hk, he⟩ := ih (o - len_utf8 c)
        exact ⟨k + 1, by simpa using hk, by simp [floorBoundary, h, he]⟩
      · exact ⟨0, by simp, by simp [floorBoundary, h]⟩

theorem floorBoundary_prefix (a b : List Char) :
    floorBoundary (a ++ b) (byteLen a) = byteLen a := by
  induction a with
  | nil =>
      cases b with
      | nil => rfl
      | cons c cs =>
          have : ¬ len_utf8 c ≤ 0 := by have := len_utf8_pos c; omega
          simp [floorBoundary, this]
  | cons c cs ih =>
      have h : len_utf8 c ≤ len_utf8 c + byteLen cs := Nat.le_add_right _ _
      simp [floorBoundary, h, ih]

theorem floorBoundary_byteLen (doc : List Char) :
    floorBoundary doc (byteLen doc) = byteLen doc := by
  simpa using floorBoundary_prefix doc []

@[simp] theorem sliceBytes_nil (s t : Nat) : sliceBytes [] s t = [] := rfl

theorem sliceBytes_cons (c : Char) (cs : List Char) (s t : Nat) :
    sliceBytes (c :: cs) s t =
      if len_utf8 c ≤ s then sliceBytes cs (s - len_utf8 c) (t - len_utf8 c)
      else if len_utf8 c ≤ t then c :: sliceBytes cs 0 (t - len_utf8 c)
      else [] := rfl

theorem sliceBytes_of_stop_le (doc : List Char) (s t : Nat) (h : t ≤ s) :
    sliceBytes doc s t = [] := by
  induction doc generalizing s t with
  | nil => rfl
  | cons c cs ih =>
      rw [sliceBytes_cons]
      split
      · exact ih _ _ (by omega)
      · split
        · omega
        · rfl

theorem byteLen_sliceBytes_le (doc : List Char) (s t : Nat) :
    byteLen (sliceBytes doc s t) ≤ t := by
  induction doc generalizing s t with
  | nil => simp
  | cons c cs ih =>
      rw [sliceBytes_cons]
      split
      · exact le_trans (ih _ _) (Nat.sub_le _ _)
      · split
        · have := ih 0 (t - len_utf8 c)
          simp only [byteLen_cons]
          omega
        · simp

theorem sliceBytes_append_left (a b : List Char) (t : Nat) :
    sliceBytes (a ++ b) (byteLen a) t = sliceBytes b 0 (t - byteLen a) := by
  induction a generalizing t with
  | nil => simp
  | cons c cs ih =>
      rw [List.cons_append, byteLen_cons, sliceBytes_cons,
        if_pos (Nat.le_add_right _ _), Nat.add_sub_cancel_left, ih, Nat.sub_sub]

theorem sliceBytes_zero_of_le (a b : List Char) (t : Nat) (h : byteLen a ≤ t) :
    sliceBytes (a ++ b) 0 t = a ++ sliceBytes b 0 (t - byteLen a) := by
  induction a generalizing t with
  | nil => simp
  | cons c cs ih =>
      have h1 : ¬ len_utf8 c ≤ 0 := by have := len_utf8_pos c; omega
      have hc : len_utf8 c ≤ t := by simp only [byteLen_cons] at h; omega
      rw [List.cons_append, sliceBytes_cons, if_neg h1, if_pos hc,
        ih (t - len_utf8 c) (by simp only [byteLen_cons] at h; omega),
        byteLen_cons, List.cons_append, Nat.sub_sub]

theorem sliceBytes_full (l : List Char) (t : Nat) (h : byteLen l ≤ t) :
    sliceBytes l 0 t = l := by
  have := sliceBytes_zero_of_le l [] t h
  simpa using this

theorem sliceBytes_take_drop (doc : List Char) (k m : Nat) (h : k ≤ m) :
    sliceBytes doc (byteLen (doc.take k)) (byteLen (doc.take m)) =
      (doc.take m).drop k := by
  induction doc generalizing k m with
  | nil => simp
  | cons c cs ih =>
      cases k with
      | zero =>
          cases m with
          | zero =>
              simpa using sliceBytes_of_stop_le (c :: cs) 0 0 (Nat.le_refl _)
          | succ m' =>
              have h1 : ¬ len_utf8 c ≤ 0 := by have := len_utf8_pos c; omega
              have h0 := ih 0 m' (Nat.zero_le _)
              simp only [List.take_zero, byteLen_nil] at h0
              rw [List.take_zero, byteLen_nil, List.take_succ_cons, byteLen_cons,
                sliceBytes_cons, if_neg h1, if_pos (Nat.le_add_right _ _),
                Nat.add_sub_cancel_left, h0]
              simp
      | succ k' =>
          cases m with
          | zero => omega
          | succ m' =>
              rw [List.take_succ_cons, List.take_succ_cons, byteLen_cons, byteLen_cons,
                sliceBytes_cons, if_pos (Nat.le_add_right _ _), Nat.add_sub_cancel_left,
                Nat.add_sub_cancel_left, List.drop_succ_cons]
              exact ih k' m' (by omega)

theorem strGo_append (p : Nat) (a b : List Char) :
    strGo p (a ++ b) = strGo p a ++ strGo (p + byteLen a) b := by
  induction a generalizing p with
  | nil => simp [strGo]
  | cons c cs ih => simp [strGo, ih, Nat.add_assoc]

theorem emitChunk_strGo (b p : Nat) (cs : List Char) :
    emitChunk (strGo p cs) b = strGo (b + p) cs := by
  induction cs generalizing p with
  | nil => simp [strGo, emitChunk]
  | cons c cs ih =>
      have h := ih (p + len_utf8 c)
      simp only [strGo, emitChunk, List.map_cons] at h ⊢
      rw [h, ← Nat.add_assoc]

theorem advanceLatest_strGo (cs : List Char) (b L : Nat) :
    advanceLatest (strGo b cs) L = if cs.isEmpty then L else b + byteLen cs := by
  induction cs generalizing b L with
  | nil => simp [strGo, advanceLatest]
  | cons c cs ih =>
      have step : advanceLatest (strGo b (c :: cs)) L =
          advanceLatest (strGo (b + len_utf8 c) cs) (b + len_utf8 c) := rfl
      rw [step, ih]
      cases cs <;> simp [Nat.add_assoc]

theorem joinAll_map_strCharIndices (chunks : List (List Char)) (L : Nat) :
    joinAll (chunks.map strCharIndices) L = strGo L chunks.flatten := by
  induction chunks generalizing L with
  | nil => simp [joinAll, strGo]
  | cons c cs ih =>
      have h1 : joinAll ((c :: cs).map strCharIndices) L =
          emitChunk (strCharIndices c) L ++
            joinAll (cs.map strCharIndices)
              (advanceLatest (emitChunk (strCharIndices c) L) L) := rfl
      have he : emitChunk (strCharIndices c) L = strGo L c := by
        simpa [strCharIndices] using emitChunk_strGo L 0 c
      rw [h1, he, List.flatten_cons, strGo_append]
      congr 1
      cases c with
      | nil => rw [advanceLatest_strGo]; simpa using ih L
      | cons d ds =>
          rw [advanceLatest_strGo]
          simpa using ih (L + byteLen (d :: ds))

theorem char_indices_iter_eq (doc : List Char) (s t : Nat) :
    char_indices_iter doc s t = strCharIndices (slice_to_cow doc s t) := by
  unfold char_indices_iter iter_chunks
  simpa [strCharIndices] using
    joinAll_map_strCharIndices [slice_to_cow doc s t] 0

theorem rlo_cons (c : Char) (cs : List Char) (o : Nat) :
    rope_line_of_offset (c :: cs) o =
      if len_utf8 c ≤ o then
        (if c = '\n' then 1 else 0) + rope_line_of_offset cs (o - len_utf8 c)
      else 0 := rfl

theorem rlo_zero (doc : List Char) : rope_line_of_offset doc 0 = 0 := by
  cases doc with
  | nil => rfl
  | cons c cs =>
      have := len_utf8_pos c
      rw [rlo_cons, if_neg (by omega)]

theorem rlo_prefix (pre suf : List Char) :
    rope_line_of_offset (pre ++ suf) (byteLen pre) = nlCount pre := by
  induction pre with
  | nil => simpa using rlo_zero suf
  | cons c cs ih =>
      rw [List.cons_append, byteLen_cons, rlo_cons,
        if_pos (Nat.le_add_right _ _), Nat.add_sub_cancel_left, ih, nlCount_cons]

theorem rlo_full (doc : List Char) :
    rope_line_of_offset doc (byteLen doc) = nlCount doc := by
  simpa using rlo_prefix doc []

theorem last_line_eq (doc : List Char) : last_line doc = nlCount doc := by
  unfold last_line line_of_offset at_or_prev_codepoint_boundary len
  simp [floorBoundary_byteLen, rlo_full]

theorem rol_zero (doc : List Char) : rope_offset_of_line 0 doc = 0 := by
  cases doc <;> rfl

theorem rol_succ_cons (n : Nat) (c : Char) (cs : List Char) :
    rope_offset_of_line (n + 1) (c :: cs) =
      len_utf8 c +
        (if c = '\n' then rope_offset_of_line n cs else rope_offset_of_line (n + 1) cs) := rfl

theorem rol_le (line : Nat) (doc : List Char) :
    rope_offset_of_line line doc ≤ byteLen doc := by
  induction doc generalizing line with
  | nil => cases line <;> simp [rope_offset_of_line]
  | cons c cs ih =>
      cases line with
      | zero => simp [rol_zero]
      | succ n =>
          rw [rol_succ_cons, byteLen_cons]
          split <;> exact Nat.add_le_add_left (ih _) _

theorem rol_ge_prefix (pre suf : List Char) :
    byteLen pre ≤ rope_offset_of_line (nlCount pre + 1) (pre ++ suf) := by
  induction pre with
  | nil => simp
  | cons c cs ih =>
      rw [List.cons_append, nlCount_cons, byteLen_cons]
      by_cases h : c = '\n'
      · rw [if_pos h]
        rw [show (1 + nlCount cs) + 1 = (nlCount cs + 1) + 1 from by omega,
          rol_succ_cons, if_pos h]
        exact Nat.add_le_add_left ih _
      · rw [if_neg h]
        rw [show (0 + nlCount cs) + 1 = nlCount cs + 1 from by omega,
          rol_succ_cons, if_neg h]
        exact Nat.add_le_add_left ih _

theorem rol_start (q rest : List Char) :
    rope_offset_of_line (nlCount q + 1) (q ++ '\n' :: rest) = byteLen q + 1 := by
  induction q with
  | nil => simp [rol_succ_cons, rol_zero, len_utf8]
  | cons c cs ih =>
      rw [List.cons_append, nlCount_cons, byteLen_cons]
      by_cases h : c = '\n'
      · rw [if_pos h,
          show (1 + nlCount cs) + 1 = (nlCount cs + 1) + 1 from by omega,
          rol_succ_cons, if_pos h, ih]
        omega
      · rw [if_neg h,
          show (0 + nlCount cs) + 1 = nlCount cs + 1 from by omega,
          rol_succ_cons, if_neg h, ih]
        omega

theorem rol_mono (doc : List Char) (l₁ l₂ : Nat) (h : l₁ ≤ l₂) :
    rope_offset_of_line l₁ doc ≤ rope_offset_of_line l₂ doc := by
  induction doc generalizing l₁ l₂ with
  | nil => cases l₁ <;> cases l₂ <;> simp [rope_offset_of_line]
  | cons c cs ih =>
      cases l₁ with
      | zero => simp [rol_zero]
      | succ n =>
          cases l₂ with
          | zero => omega
          | succ m =>
              rw [rol_succ_cons, rol_succ_cons]
              split <;> exact Nat.add_le_add_left (ih _ _ (by omega)) _

theorem rol_take (line : Nat) (doc : List Char) :
    ∃ k, k ≤ doc.length ∧ rope_offset_of_line line doc = byteLen (doc.take k) := by
  induction doc generalizing line with
  | nil => exact ⟨0, by simp, by cases line <;> rfl⟩
  | cons c cs ih =>
      cases line with
      | zero => exact ⟨0, by simp, rfl⟩
      | succ n =>
          by_cases h : c = '\n'
          · obtain ⟨k, hk, he⟩ := ih n
            exact ⟨k + 1, by simpa using hk,
              by rw [rol_succ_cons, if_pos h, he, List.take_succ_cons, byteLen_cons]⟩
          · obtain ⟨k, hk, he⟩ := ih (n + 1)
            exact ⟨k + 1, by simpa using hk,
              by rw [rol_succ_cons, if_neg h, he, List.take_succ_cons, byteLen_cons]⟩

theorem byteLen_take_lt (doc : List Char) (m k : Nat) (h : m < k)
    (hk : k ≤ doc.length) : byteLen (doc.take m) < byteLen (doc.take k) := by
  induction doc generalizing m k with
  | nil => simp at hk; omega
  | cons c cs ih =>
      cases k with
      | zero => omega
      | succ k' =>
          cases m with
          | zero =>
              have := len_utf8_pos c
              simp only [List.take_zero, byteLen_nil, List.take_succ_cons, byteLen_cons]
              have := byteLen (cs.take k')
              omega
          | succ m' =>
              simp only [List.take_succ_cons, byteLen_cons]
              have := ih m' k' (by omega) (by simpa using hk)
              omega

theorem ool_le (doc : List Char) (line : Nat) :
    offset_of_line doc line ≤ len doc := rol_le _ _

theorem ool_mono (doc : List Char) (l₁ l₂ : Nat) (h : l₁ ≤ l₂) :
    offset_of_line doc l₁ ≤ offset_of_line doc l₂ :=
  rol_mono _ _ _ (by omega)

theorem ool_take (doc : List Char) (line : Nat) :
    ∃ k, k ≤ doc.length ∧ offset_of_line doc line = byteLen (doc.take k) :=
  rol_take _ _

theorem byteLen_drop_take (doc : List Char) (k m : Nat) (h : k ≤ m) :
    byteLen ((doc.take m).drop k) = byteLen (doc.take m) - byteLen (doc.take k) := by
  have hsplit : doc.take m = (doc.take m).take k ++ (doc.take m).drop k :=
    (List.take_append_drop k _).symm
  have htt : (doc.take m).take k = doc.take k := by
    rw [List.take_take, Nat.min_eq_left h]
  have := congrArg byteLen hsplit
  rw [byteLen_append, htt] at this
  omega

theorem slice_between_lines (doc : List Char) (l₁ l₂ : Nat) (h : l₁ ≤ l₂) :
    byteLen (sliceBytes doc (offset_of_line doc l₁) (offset_of_line doc l₂)) =
      offset_of_line doc l₂ - offset_of_line doc l₁ := by
  obtain ⟨k, hk, hek⟩ := ool_take doc l₁
  obtain ⟨m, hm, hem⟩ := ool_take doc l₂
  have hle : offset_of_line doc l₁ ≤ offset_of_line doc l₂ := ool_mono doc l₁ l₂ h
  have hkm : k ≤ m := by
    by_contra hc
    have := byteLen_take_lt doc m k (by omega) hk
    omega
  rw [hek, hem, sliceBytes_take_drop doc k m hkm, byteLen_drop_take doc k m hkm]

theorem endsWith_exists (l s : List Char) (h : endsWith l s = true) :
    ∃ q, l = q ++ s := by
  have hd : l.drop (l.length - s.length) = s := of_decide_eq_true h
  refine ⟨l.take (l.length - s.length), ?_⟩
  conv_lhs => rw [← List.take_append_drop (l.length - s.length) l]
  rw [hd]

theorem pgoGo_zero (pg : Nat → Option Nat) (limit new : Nat) :
    pgoGo pg limit 0 new = new := rfl

theorem pgoGo_succ (pg : Nat → Option Nat) (limit count new : Nat) :
    pgoGo pg limit (count + 1) new =
      match pg new with
      | some p => if p < limit then new else pgoGo pg limit count p
      | none => new := rfl

theorem prevCodepointBoundary_le (doc : List Char) (o p : Nat)
    (h : prevCodepointBoundary doc o = some p) : p ≤ byteLen doc := by
  unfold prevCodepointBoundary at h
  split at h
  · exact absurd h (by simp)
  · injection h with h
    rw [← h]
    exact floorBoundary_le _ _

theorem pgoGo_pcb_le (doc : List Char) (limit : Nat) :
    ∀ count new, new ≤ byteLen doc →
      pgoGo (prevCodepointBoundary doc) limit count new ≤ byteLen doc := by
  intro count
  induction count with
  | zero => intro new h; exact h
  | succ n ih =>
      intro new h
      rw [pgoGo_succ]
      cases h0 : prevCodepointBoundary doc new with
      | none => exact h
      | some p =>
          have hp := prevCodepointBoundary_le doc new p h0
          dsimp only
          split
          · exact h
          · exact ih p hp

theorem prev_grapheme_offset_pcb_le (doc : List Char) (offset count limit : Nat) :
    prev_grapheme_offset (prevCodepointBoundary doc) doc offset count limit ≤ len doc :=
  pgoGo_pcb_le doc limit count _ (Nat.min_le_right _ _)

theorem line_end_offset_pcb_le (doc : List Char) (line : Nat) (caret : Bool) :
    line_end_offset (prevCodepointBoundary doc) doc line caret ≤ len doc := by
  have h1 : offset_of_line doc (line + 1) ≤ len doc := ool_le doc (line + 1)
  unfold line_end_offset
  dsimp only
  split_ifs <;>
    first
      | exact prev_grapheme_offset_pcb_le doc _ _ _
      | omega

/-- Claim C6: joining the per-chunk character-index streams produces the
same sequence of (offset, character) pairs as iterating the characters of
the concatenated document directly, for every internal chunking; and the
join produces nothing once the outer sequence of chunk iterators is
exhausted. -/
theorem claim_C6 :
    (∀ chunks : List (List Char),
        joinAll (chunks.map strCharIndices) 0 = strCharIndices chunks.flatten)
    ∧ (∀ latest : Nat, joinAll [] latest = []) := by
  constructor
  · intro chunks
    simpa [strCharIndices] using joinAll_map_strCharIndices chunks 0
  · intro latest
    rfl

/-- Claim C5 (counterexample): on the document "abc" with the byte range
starting at offset 1, the joined stream yields the pair (0, 'b'), whose
offset 0 is not the absolute byte offset of any character of the
document — offsets are relative to the range start, not absolute. -/
theorem claim_C5_counterexample :
    ¬ (∀ p ∈ char_indices_iter ['a', 'b', 'c'] 1 3, p ∈ strCharIndices ['a', 'b', 'c']) := by
  decide

/-- Claim C5 (amended): every pair yielded by `charIndices(range)`
carries the character's byte offset relative to the start of the range
(absolute only when the range starts at 0): the stream equals the direct
character-index enumeration of the range's content, for every internal
chunking of that content. -/
theorem claim_C5 :
    (∀ (doc : List Char) (s t : Nat),
        char_indices_iter doc s t = strCharIndices (slice_to_cow doc s t))
    ∧ (∀ (doc : List Char) (s t : Nat) (chunks : List (List Char)),
        chunks.flatten = slice_to_cow doc s t →
          joinAll (chunks.map strCharIndices) 0 = strCharIndices (slice_to_cow doc s t)) := by
  constructor
  · exact char_indices_iter_eq
  · intro doc s t chunks h
    rw [← h]
    simpa [strCharIndices] using joinAll_map_strCharIndices chunks 0

/-- Claim C5 witness: the amended statement applied to the document
"abc", range [1, 3), split into the chunks "b" and "c". -/
theorem claim_C5_witness :
    [['b'], ['c']].flatten = slice_to_cow ['a', 'b', 'c'] 1 3
    ∧ joinAll ([['b'], ['c']].map strCharIndices) 0 =
        strCharIndices (slice_to_cow ['a', 'b', 'c'] 1 3) :=
  ⟨by decide, claim_C5.2 ['a', 'b', 'c'] 1 3 [['b'], ['c']] (by decide)⟩

/-- Claim C1 (code bug): the clamp-never-panic contract holds for the
facade's wrapped operations — `offset_of_line` never exceeds the
document length, the line-end trim subtractions never underflow (a
trailing CRLF guarantees the next line start is at least 2, a trailing
LF at least 1), `prev_grapheme_offset` and `line_end_offset` stay
clamped, and the facade's line clamp always keeps the rope's
start-offset-of-line lookup inside its valid domain — but
`indent_on_line` passes its line argument to that lookup unclamped, so
for every line strictly past `last_line + 1` it hits the lookup's
invalid region and fails (panics in the real rope); concretely, on
"abc" (where `last_line + 1 = 1`) line 2 fails. -/
theorem claim_C1 :
    (∀ (doc : List Char) (line : Nat),
        offset_of_line doc line ≤ len doc
        ∧ (endsWith (line_content doc line) ['\r', '\n'] = true →
            2 ≤ offset_of_line doc (line + 1))
        ∧ (endsWith (line_content doc line) ['\n'] = true →
            1 ≤ offset_of_line doc (line + 1))
        ∧ (∀ offset count limit,
            prev_grapheme_offset (prevCodepointBoundary doc) doc offset count limit ≤ len doc)
        ∧ (∀ caret, line_end_offset (prevCodepointBoundary doc) doc line caret ≤ len doc)
        ∧ rope_offset_of_line_checked (min line (last_line doc + 1)) doc =
            some (offset_of_line doc line))
    ∧ (∀ (doc : List Char) (line : Nat),
        last_line doc + 1 < line → indent_on_line doc line = none)
    ∧ last_line ['a', 'b', 'c'] + 1 < 2
    ∧ indent_on_line ['a', 'b', 'c'] 2 = none := by
  refine ⟨?_, ?_, by decide, by decide⟩
  · intro doc line
    refine ⟨ool_le doc line, ?_, ?_, ?_, ?_, ?_⟩
    · intro h
      obtain ⟨q, hq⟩ := endsWith_exists _ _ h
      have h1 : byteLen (line_content doc line) ≤ offset_of_line doc (line + 1) :=
        byteLen_sliceBytes_le _ _ _
      have h2 : byteLen (line_content doc line) = byteLen q + 2 := by
        rw [hq, byteLen_append]
        have : byteLen ['\r', '\n'] = 2 := by decide
        omega
      omega
    · intro h
      obtain ⟨q, hq⟩ := endsWith_exists _ _ h
      have h1 : byteLen (line_content doc line) ≤ offset_of_line doc (line + 1) :=
        byteLen_sliceBytes_le _ _ _
      have h2 : byteLen (line_content doc line) = byteLen q + 1 := by
        rw [hq, byteLen_append]
        have : byteLen ['\n'] = 1 := by decide
        omega
      omega
    · intro offset count limit
      exact prev_grapheme_offset_pcb_le doc offset count limit
    · intro caret
      exact line_end_offset_pcb_le doc line caret
    · unfold rope_offset_of_line_checked
      rw [if_pos (by rw [← last_line_eq doc]; exact Nat.min_le_right _ _)]
      rfl
  · intro doc line h
    unfold indent_on_line rope_offset_of_line_checked
    rw [if_neg (by rw [← last_line_eq doc]; omega)]

/-- Claim C1 witness: the underflow guards instantiated on the CRLF
document "a\r\n" (next line start 3 is at least 2) and the LF document
"a\n" (next line start 2 is at least 1), and the out-of-range failure
of `indent_on_line` instantiated on "abc" at line 2. -/
theorem claim_C1_witness :
    (endsWith (line_content ['a', '\r', '\n'] 0) ['\r', '\n'] = true
      ∧ 2 ≤ offset_of_line ['a', '\r', '\n'] 1)
    ∧ (endsWith (line_content ['a', '\n'] 0) ['\n'] = true
      ∧ 1 ≤ offset_of_line ['a', '\n'] 1)
    ∧ (last_line ['a', 'b', 'c'] + 1 < 2 ∧ indent_on_line ['a', 'b', 'c'] 2 = none) :=
  ⟨⟨by decide, (claim_C1.1 ['a', '\r', '\n'] 0).2.1 (by decide)⟩,
   ⟨by decide, (claim_C1.1 ['a', '\n'] 0).2.2.1 (by decide)⟩,
   ⟨by decide, claim_C1.2.1 ['a', 'b', 'c'] 2 (by decide)⟩⟩

/-- Claim C8: `line_content` returns exactly the span between the
(clamped) start offsets of `line` and `line + 1`, and for every line
strictly past `last_line + 1` the two clamped offsets coincide, so the
result is the empty string. -/
theorem claim_C8 : ∀ (doc : List Char) (line : Nat),
    line_content doc line =
      sliceBytes doc (offset_of_line doc line) (offset_of_line doc (line + 1))
    ∧ (last_line doc + 1 < line → line_content doc line = []) := by
  intro doc line
  refine ⟨rfl, fun h => ?_⟩
  unfold line_content offset_of_line
  rw [Nat.min_eq_right (by omega), Nat.min_eq_right (by omega)]
  exact sliceBytes_of_stop_le _ _ _ (Nat.le_refl _)

/-- Claim C8 witness: line 4 of the document "a\nb" lies strictly past
`last_line + 1 = 2` and yields the empty string. -/
theorem claim_C8_witness :
    last_line ['a', '\n', 'b'] + 1 < 4 ∧ line_content ['a', '\n', 'b'] 4 = [] :=
  ⟨by decide, (claim_C8 ['a', '\n', 'b'] 4).2 (by decide)⟩

/-- Claim C9: `first_non_blank_character_on_line` substitutes
`last_line` for lines strictly past `last_line + 1`, keeps the line
otherwise (including the one-past-end line), and delegates to the
boundary scanner at that line's start; on "abc\ndef\nghi" lines 0..5
give 0, 4, 8, 11, 8, 8. -/
theorem claim_C9 :
    (∀ (doc : List Char) (line : Nat),
        first_non_blank_character_on_line doc line =
          next_non_blank_char doc
            (rope_offset_of_line
              (if last_line doc + 1 < line then last_line doc else line) doc))
    ∧ first_non_blank_character_on_line docAbcLines 0 = 0
    ∧ first_non_blank_character_on_line docAbcLines 1 = 4
    ∧ first_non_blank_character_on_line docAbcLines 2 = 8
    ∧ first_non_blank_character_on_line docAbcLines 3 = 11
    ∧ first_non_blank_character_on_line docAbcLines 4 = 8
    ∧ first_non_blank_character_on_line docAbcLines 5 = 8 :=
  ⟨fun _ _ => rfl, by decide, by decide, by decide, by decide, by decide, by decide⟩

theorem specPgoGo_succ (pg : Nat → Option Nat) (limit count o : Nat) :
    specPgoGo pg limit (count + 1) o =
      match specStepOnce pg limit o with
      | some p => specPgoGo pg limit count p
      | none => o := rfl

theorem pgoGo_eq_spec (pg : Nat → Option Nat) (limit : Nat) :
    ∀ count o, pgoGo pg limit count o = specPgoGo pg limit count o := by
  intro count
  induction count with
  | zero => intro o; rfl
  | succ n ih =>
      intro o
      rw [pgoGo_succ, specPgoGo_succ]
      cases hp : pg o with
      | none => simp [specStepOnce, hp]
      | some p =>
          simp only [specStepOnce, hp]
          by_cases hl : p < limit
          · rw [if_pos hl, if_neg (by omega)]
          · rw [if_neg hl, if_pos (by omega)]
            exact ih p

theorem prev_grapheme_one (pg : Nat → Option Nat) (doc : List Char) (x : Nat)
    (h : x ≤ len doc) :
    prev_grapheme_offset pg doc x 1 0 = (pg x).getD x := by
  unfold prev_grapheme_offset
  rw [Nat.min_eq_left h,
    show (1 : Nat) = 0 + 1 from rfl, pgoGo_succ]
  cases hp : pg x with
  | none => rfl
  | some p =>
      dsimp only
      rw [if_neg (by omega), pgoGo_zero, Option.getD_some]

/-- Claim C4: `prev_grapheme_offset` clamps its offset and performs the
spec's limited backward walk — a step to a boundary exactly at `limit`
is taken, a step below `limit` is refused and the walk stops at the last
reached offset — and on "abc def ghi" the spec's concrete values
`prevGraphemeOffset(2,1,0)=1`, `(2,1,1)=1` and `(0,1,0)=0` hold. -/
theorem claim_C4 :
    (∀ (pg : Nat → Option Nat) (doc : List Char) (offset count limit : Nat),
        prev_grapheme_offset pg doc offset count limit =
          spec_prev_grapheme_offset pg doc offset count limit)
    ∧ (∀ (pg : Nat → Option Nat) (doc : List Char) (o p limit : Nat),
        pg (min o (len doc)) = some p → limit ≤ p →
          prev_grapheme_offset pg doc o 1 limit = p)
    ∧ (∀ (pg : Nat → Option Nat) (doc : List Char) (o p limit : Nat),
        pg (min o (len doc)) = some p → p < limit →
          prev_grapheme_offset pg doc o 1 limit = min o (len doc))
    ∧ prev_grapheme_offset (prevCodepointBoundary docAbcSpaced) docAbcSpaced 2 1 0 = 1
    ∧ prev_grapheme_offset (prevCodepointBoundary docAbcSpaced) docAbcSpaced 2 1 1 = 1
    ∧ prev_grapheme_offset (prevCodepointBoundary docAbcSpaced) docAbcSpaced 0 1 0 = 0 := by
  refine ⟨?_, ?_, ?_, by decide, by decide, by decide⟩
  · intro pg doc offset count limit
    exact pgoGo_eq_spec pg limit count _
  · intro pg doc o p limit hsome hge
    unfold prev_grapheme_offset
    rw [show (1 : Nat) = 0 + 1 from rfl, pgoGo_succ, hsome]
    dsimp only
    rw [if_neg (by omega), pgoGo_zero]
  · intro pg doc o p limit hsome hlt
    unfold prev_grapheme_offset
    rw [show (1 : Nat) = 0 + 1 from rfl, pgoGo_succ, hsome]
    dsimp only
    rw [if_pos hlt]

/-- Claim C4 witness: on the document "ab" at offset 2 the previous
codepoint boundary is 1; with limit 1 the step is accepted (boundary
exactly at the limit), with limit 2 it is refused and the clamped start
offset is returned. -/
theorem claim_C4_witness :
    (prevCodepointBoundary ['a', 'b'] (min 2 (len ['a', 'b'])) = some 1
      ∧ (1 : Nat) ≤ 1
      ∧ prev_grapheme_offset (prevCodepointBoundary ['a', 'b']) ['a', 'b'] 2 1 1 = 1)
    ∧ ((1 : Nat) < 2
      ∧ prev_grapheme_offset (prevCodepointBoundary ['a', 'b']) ['a', 'b'] 2 1 2 =
          min 2 (len ['a', 'b'])) :=
  ⟨⟨by decide, by decide,
      claim_C4.2.1 (prevCodepointBoundary ['a', 'b']) ['a', 'b'] 2 1 1 (by decide) (by decide)⟩,
   ⟨by decide,
      claim_C4.2.2.1 (prevCodepointBoundary ['a', 'b']) ['a', 'b'] 2 1 2 (by decide) (by decide)⟩⟩

theorem olcGo_nil (pos offset col : Nat) : olcGo [] pos offset col = offset := rfl

theorem olcGo_cons (c : Char) (cs : List Char) (pos offset col : Nat) :
    olcGo (c :: cs) pos offset col =
      if c = '\n' then offset
      else if col < pos + len_utf8 c then offset
      else olcGo cs (pos + len_utf8 c) (offset + len_utf8 c) col := rfl

theorem specColWalk_nil (col : Nat) : specColWalk [] col = [] := rfl

theorem specColWalk_cons (c : Char) (cs : List Char) (col : Nat) :
    specColWalk (c :: cs) col =
      if c = '\n' then []
      else if col < len_utf8 c then []
      else c :: specColWalk cs (col - len_utf8 c) := rfl

theorem olcGo_eq (cs : List Char) :
    ∀ pos offset col, pos ≤ col →
      olcGo cs pos offset col = offset + byteLen (specColWalk cs (col - pos)) := by
  induction cs with
  | nil => intro pos offset col _; simp [olcGo_nil, specColWalk_nil]
  | cons c cs ih =>
      intro pos offset col h
      rw [olcGo_cons, specColWalk_cons]
      by_cases hn : c = '\n'
      · rw [if_pos hn, if_pos hn]; simp
      · rw [if_neg hn, if_neg hn]
        by_cases hc : col < pos + len_utf8 c
        · rw [if_pos hc, if_pos (show col - pos < len_utf8 c by omega)]; simp
        · rw [if_neg hc, if_neg (show ¬ col - pos < len_utf8 c by omega),
            ih (pos + len_utf8 c) (offset + len_utf8 c) col (by omega),
            byteLen_cons, Nat.sub_sub]
          omega

theorem byteLen_specColWalk_le (cs : List Char) (col : Nat) :
    byteLen (specColWalk cs col) ≤ byteLen cs := by
  induction cs generalizing col with
  | nil => simp [specColWalk_nil]
  | cons c cs ih =>
      rw [specColWalk_cons]
      split
      · simp
      · split
        · simp
        · simp only [byteLen_cons]
          exact Nat.add_le_add_left (ih _) _

/-- Claim C7: `offset_of_line_col` computes exactly the spec's walk: the
line's start offset advanced by the byte length of the longest prefix of
the line's characters that stops at a newline and never lets the
accumulated byte length exceed the requested column (the line's end
offset when the walk exhausts the line). -/
theorem claim_C7 : ∀ (doc : List Char) (line col : Nat),
    offset_of_line_col doc line col = spec_offset_of_line_col doc line col := by
  intro doc line col
  unfold offset_of_line_col spec_offset_of_line_col
  rw [olcGo_eq _ 0 _ col (Nat.zero_le _), Nat.sub_zero]

/-- Claim C10: for every document, line and column, the offset returned
by `offset_of_line_col` lies within the target line: it is at least the
line's start offset and at most the start offset of the next line. -/
theorem claim_C10 : ∀ (doc : List Char) (line col : Nat),
    offset_of_line doc line ≤ offset_of_line_col doc line col
    ∧ offset_of_line_col doc line col ≤ offset_of_line doc (line + 1) := by
  intro doc line col
  have hs : offset_of_line doc line ≤ len doc := ool_le doc line
  have ht : offset_of_line doc (line + 1) ≤ len doc := ool_le doc (line + 1)
  have hmono : offset_of_line doc line ≤ offset_of_line doc (line + 1) :=
    ool_mono doc line (line + 1) (by omega)
  have hsl := slice_between_lines doc line (line + 1) (by omega)
  unfold offset_of_line_col slice_to_cow
  rw [Nat.min_eq_left hs, Nat.min_eq_left ht,
    olcGo_eq _ 0 _ col (Nat.zero_le _), Nat.sub_zero]
  have hb := byteLen_specColWalk_le
    (sliceBytes doc (offset_of_line doc line) (offset_of_line doc (line + 1))) col
  omega

/-- Claim C3: `line_end_offset` equals the spec's description — the
offset at the end of the line content with a trailing CRLF (2 bytes) or
LF (1 byte) trimmed, stepped back one grapheme cluster when `caret` is
false and the trimmed line is non-empty — and on "hello\nworld" the
concrete values for (line, caret) = (0,false),(0,true),(1,false),
(1,true),(2,false),(2,true) are 4, 5, 10, 11, 11, 11. -/
theorem claim_C3 :
    (∀ (pg : Nat → Option Nat) (doc : List Char) (line : Nat) (caret : Bool),
        line_end_offset pg doc line caret = spec_line_end_offset pg doc line caret)
    ∧ line_end_offset (prevCodepointBoundary docHelloWorld) docHelloWorld 0 false = 4
    ∧ line_end_offset (prevCodepointBoundary docHelloWorld) docHelloWorld 0 true = 5
    ∧ line_end_offset (prevCodepointBoundary docHelloWorld) docHelloWorld 1 false = 10
    ∧ line_end_offset (prevCodepointBoundary docHelloWorld) docHelloWorld 1 true = 11
    ∧ line_end_offset (prevCodepointBoundary docHelloWorld) docHelloWorld 2 false = 11
    ∧ line_end_offset (prevCodepointBoundary docHelloWorld) docHelloWorld 2 true = 11 := by
  refine ⟨?_, by decide, by decide, by decide, by decide, by decide, by decide⟩
  intro pg doc line caret
  have hmono : offset_of_line doc line ≤ offset_of_line doc (line + 1) :=
    ool_mono doc line (line + 1) (by omega)
  have hle : offset_of_line doc (line + 1) ≤ len doc := ool_le doc (line + 1)
  have hlc : byteLen (line_content doc line) =
      offset_of_line doc (line + 1) - offset_of_line doc line :=
    slice_between_lines doc line (line + 1) (by omega)
  unfold line_end_offset spec_line_end_offset
  dsimp only
  by_cases h1 : endsWith (line_content doc line) ['\r', '\n'] = true
  · obtain ⟨q, hq⟩ := endsWith_exists _ _ h1
    have hq2 : (line_content doc line).dropLast.dropLast = q := by
      rw [hq, show q ++ ['\r', '\n'] = (q ++ ['\r']) ++ ['\n'] from by simp,
        List.dropLast_concat, List.dropLast_concat]
    have hbl : byteLen (line_content doc line) = byteLen q + 2 := by
      have h2 : byteLen ['\r', '\n'] = 2 := by decide
      rw [hq, byteLen_append, h2]
    have hoff : offset_of_line doc (line + 1) - 2 =
        offset_of_line doc line + byteLen q := by omega
    rw [if_pos h1, if_pos h1]
    dsimp only
    rw [hq2, hoff]
    split
    · exact prev_grapheme_one pg doc _ (by omega)
    · rfl
  · rw [if_neg h1, if_neg h1]
    by_cases h2 : endsWith (line_content doc line) ['\n'] = true
    · obtain ⟨q, hq⟩ := endsWith_exists _ _ h2
      have hq2 : (line_content doc line).dropLast = q := by
        rw [hq, List.dropLast_concat]
      have hbl : byteLen (line_content doc line) = byteLen q + 1 := by
        have h3 : byteLen ['\n'] = 1 := by decide
        rw [hq, byteLen_append, h3]
      have hoff : offset_of_line doc (line + 1) - 1 =
          offset_of_line doc line + byteLen q := by omega
      rw [if_pos h2, if_pos h2]
      dsimp only
      rw [hq2, hoff]
      split
      · exact prev_grapheme_one pg doc _ (by omega)
      · rfl
    · have hoff : offset_of_line doc (line + 1) =
          offset_of_line doc line + byteLen (line_content doc line) := by omega
      rw [if_neg h2, if_neg h2]
      dsimp only
      rw [hoff]
      split
      · exact prev_grapheme_one pg doc _ (by omega)
      · rfl

@[simp] theorem utf16Len_nil : utf16Len [] = 0 := rfl

@[simp] theorem utf16Len_cons (c : Char) (cs : List Char) :
    utf16Len (c :: cs) = len_utf16 c + utf16Len cs := rfl

theorem o8to16_nil (col : Nat) : offset_utf8_to_utf16 [] col = 0 := rfl

theorem o8to16_cons (off : Nat) (c : Char) (rest : List (Nat × Char)) (col : Nat) :
    offset_utf8_to_utf16 ((off, c) :: rest) col =
      if off < col then len_utf16 c + offset_utf8_to_utf16 rest col else 0 := rfl

theorem u16Go_nil (n u16 u8 : Nat) : u16Go [] n u16 u8 = u8 := rfl

theorem u16Go_cons (off : Nat) (c : Char) (rest : List (Nat × Char)) (n u16 u8 : Nat) :
    u16Go ((off, c) :: rest) n u16 u8 =
      if n ≤ u16 then u8 else u16Go rest n (u16 + len_utf16 c) (u8 + len_utf8 c) := rfl

theorem strGo_nil (pos : Nat) : strGo pos [] = [] := rfl

theorem strGo_cons (pos : Nat) (c : Char) (cs : List Char) :
    strGo pos (c :: cs) = (pos, c) :: strGo (pos + len_utf8 c) cs := rfl

theorem utf8_to_utf16_take (cs : List Char) :
    ∀ j pos, offset_utf8_to_utf16 (strGo pos cs) (pos + byteLen (cs.take j)) =
      utf16Len (cs.take j) := by
  induction cs with
  | nil => intro j pos; simp [strGo_nil, o8to16_nil]
  | cons c cs ih =>
      intro j pos
      cases j with
      | zero =>
          rw [List.take_zero, byteLen_nil, Nat.add_zero, strGo_cons, o8to16_cons,
            if_neg (by omega)]
          rfl
      | succ j' =>
          have hc := len_utf8_pos c
          rw [List.take_succ_cons, byteLen_cons, strGo_cons, o8to16_cons,
            if_pos (by omega), utf16Len_cons,
            show pos + (len_utf8 c + byteLen (cs.take j')) =
              (pos + len_utf8 c) + byteLen (cs.take j') from by omega,
            ih j' (pos + len_utf8 c)]

theorem utf16_to_utf8_take (cs : List Char) :
    ∀ j pos u16a u8a,
      u16Go (strGo pos cs) (u16a + utf16Len (cs.take j)) u16a u8a =
        u8a + byteLen (cs.take j) := by
  induction cs with
  | nil => intro j pos a b; simp [strGo_nil, u16Go_nil]
  | cons c cs ih =>
      intro j pos a b
      cases j with
      | zero =>
          rw [List.take_zero, utf16Len_nil, Nat.add_zero, byteLen_nil, Nat.add_zero,
            strGo_cons, u16Go_cons, if_pos (Nat.le_refl a)]
      | succ j' =>
          have h16 := len_utf16_pos c
          rw [List.take_succ_cons, utf16Len_cons, byteLen_cons, strGo_cons, u16Go_cons,
            if_neg (by omega),
            show a + (len_utf16 c + utf16Len (cs.take j')) =
              (a + len_utf16 c) + utf16Len (cs.take j') from by omega,
            ih j' (pos + len_utf8 c) (a + len_utf16 c) (b + len_utf8 c)]
          omega

theorem o8to16_zero (stream : List (Nat × Char)) :
    offset_utf8_to_utf16 stream 0 = 0 := by
  cases stream with
  | nil => rfl
  | cons p rest => rw [show p = (p.1, p.2) from rfl, o8to16_cons, if_neg (by omega)]

theorem o16to8_zero (stream : List (Nat × Char)) :
    offset_utf16_to_utf8 stream 0 = 0 := by
  cases stream with
  | nil => rfl
  | cons p rest =>
      unfold offset_utf16_to_utf8
      rw [show p = (p.1, p.2) from rfl, u16Go_cons, if_pos (Nat.le_refl 0)]

theorem specColWalk_noNl (p : List Char) :
    ∀ rest, '\n' ∉ p → specColWalk (p ++ rest) (byteLen p) = p := by
  induction p with
  | nil =>
      intro rest _
      cases rest with
      | nil => rfl
      | cons c cs =>
          have := len_utf8_pos c
          rw [List.nil_append, byteLen_nil, specColWalk_cons]
          split
          · rfl
          · rw [if_pos (by omega)]
  | cons c p ih =>
      intro rest hn
      have hc : ¬ c = '\n' := fun h => hn (h ▸ List.mem_cons_self c p)
      have hp : '\n' ∉ p := fun h => hn (List.mem_cons_of_mem c h)
      rw [List.cons_append, byteLen_cons, specColWalk_cons, if_neg hc,
        if_neg (by omega), Nat.add_sub_cancel_left, ih rest hp]

theorem split_last_nl (pre : List Char) :
    ∃ p1 p2, pre = p1 ++ p2 ∧ '\n' ∉ p2 ∧ (p1 = [] ∨ ∃ q, p1 = q ++ ['\n']) := by
  induction pre with
  | nil => exact ⟨[], [], rfl, by simp, Or.inl rfl⟩
  | cons c cs ih =>
      obtain ⟨p1, p2, hj, hn, hq⟩ := ih
      rcases hq with h0 | ⟨q, hq⟩
      · by_cases hc : c = '\n'
        · refine ⟨[c], p2, ?_, hn, Or.inr ⟨[], by rw [hc, List.nil_append]⟩⟩
          rw [hj, h0, List.nil_append, List.singleton_append]
        · refine ⟨[], c :: cs, rfl, ?_, Or.inl rfl⟩
          intro hmem
          rcases List.mem_cons.mp hmem with h | h
          · exact hc h.symm
          · rw [hj, h0, List.nil_append] at h
            exact hn h
      · exact ⟨c :: p1, p2, by rw [hj, List.cons_append], hn,
          Or.inr ⟨c :: q, by rw [hq, List.cons_append]⟩⟩

theorem byteLen_replicate_nl (n : Nat) :
    byteLen (List.replicate n '\n') = n := by
  induction n with
  | zero => rfl
  | succ m ih =>
      have h1 : len_utf8 '\n' = 1 := by decide
      rw [List.replicate_succ, byteLen_cons, ih, h1]
      omega

theorem nlCount_replicate (n : Nat) :
    nlCount (List.replicate n '\n') = n := by
  induction n with
  | zero => rfl
  | succ m ih =>
      rw [List.replicate_succ, nlCount_cons, if_pos rfl, ih]
      omega

theorem rol_replicate (n : Nat) :
    ∀ k, k ≤ n → rope_offset_of_line k (List.replicate n '\n') = k := by
  induction n with
  | zero => intro k hk; interval_cases k; exact rol_zero _
  | succ m ih =>
      intro k hk
      cases k with
      | zero => exact rol_zero _
      | succ k' =>
          have h1 : len_utf8 '\n' = 1 := by decide
          rw [List.replicate_succ, rol_succ_cons, if_pos rfl, ih k' (by omega), h1]
          omega

theorem line_of_offset_red (doc : List Char) (offset : Nat) :
    line_of_offset doc offset =
      rope_line_of_offset doc (floorBoundary doc (min offset (len doc))) := rfl

theorem offset_to_line_col_red (doc : List Char) (offset : Nat) :
    offset_to_line_col doc offset =
      (if min offset (len doc) =
          offset_of_line doc (line_of_offset doc (min offset (len doc)))
       then (line_of_offset doc (min offset (len doc)), 0)
       else (line_of_offset doc (min offset (len doc)),
         min offset (len doc) -
           offset_of_line doc (line_of_offset doc (min offset (len doc))))) := rfl

theorem offset_to_position_red (doc : List Char) (offset : Nat) :
    offset_to_position doc offset =
      ⟨(offset_to_line_col doc offset).1 % 2 ^ 32,
        offset_utf8_to_utf16
          (char_indices_iter doc
            (offset_of_line doc (offset_to_line_col doc offset).1) (len doc))
          (offset_to_line_col doc offset).2 % 2 ^ 32⟩ := rfl

theorem offset_of_position_red (doc : List Char) (pos : Position) :
    offset_of_position doc pos =
      offset_of_line_col doc pos.line
        (offset_utf16_to_utf8
          (char_indices_iter doc (offset_of_line doc pos.line) (len doc))
          pos.character) := rfl

theorem roundtrip_aux (p1 p2 suf : List Char)
    (hnop2 : '\n' ∉ p2)
    (hp1 : p1 = [] ∨ ∃ q, p1 = q ++ ['\n'])
    (hlen : byteLen (p1 ++ (p2 ++ suf)) < 2 ^ 32) :
    offset_of_position (p1 ++ (p2 ++ suf))
      (offset_to_position (p1 ++ (p2 ++ suf)) (byteLen p1 + byteLen p2)) =
      byteLen p1 + byteLen p2 := by
  have hlenD : len (p1 ++ (p2 ++ suf)) = byteLen p1 + (byteLen p2 + byteLen suf) := by
    unfold len
    rw [byteLen_append, byteLen_append]
  have hlen' : byteLen p1 + (byteLen p2 + byteLen suf) < 2 ^ 32 := by
    rw [byteLen_append, byteLen_append] at hlen
    exact hlen
  have hnlD : nlCount (p1 ++ (p2 ++ suf)) = nlCount p1 + nlCount suf := by
    rw [nlCount_append, nlCount_append, nlCount_eq_zero p2 hnop2]
    omega
  have hlast : last_line (p1 ++ (p2 ++ suf)) = nlCount p1 + nlCount suf := by
    rw [last_line_eq, hnlD]
  have hmin : min (byteLen p1 + byteLen p2) (len (p1 ++ (p2 ++ suf))) =
      byteLen p1 + byteLen p2 :=
    Nat.min_eq_left (by omega)
  have hfb : floorBoundary (p1 ++ (p2 ++ suf)) (byteLen p1 + byteLen p2) =
      byteLen p1 + byteLen p2 := by
    have h := floorBoundary_prefix (p1 ++ p2) suf
    rw [List.append_assoc, byteLen_append] at h
    exact h
  have hlo : line_of_offset (p1 ++ (p2 ++ suf)) (byteLen p1 + byteLen p2) = nlCount p1 := by
    have hred : line_of_offset (p1 ++ (p2 ++ suf)) (byteLen p1 + byteLen p2) =
        rope_line_of_offset (p1 ++ (p2 ++ suf))
          (floorBoundary (p1 ++ (p2 ++ suf))
            (min (byteLen p1 + byteLen p2) (len (p1 ++ (p2 ++ suf))))) := rfl
    rw [hred, hmin, hfb]
    have h := rlo_prefix (p1 ++ p2) suf
    rw [List.append_assoc, byteLen_append, nlCount_append,
      nlCount_eq_zero p2 hnop2] at h
    rw [h]
    omega
  have hls : offset_of_line (p1 ++ (p2 ++ suf)) (nlCount p1) = byteLen p1 := by
    unfold offset_of_line
    rw [hlast, Nat.min_eq_left (by omega)]
    rcases hp1 with rfl | ⟨q, rfl⟩
    · rw [show nlCount ([] : List Char) = 0 from rfl]
      exact rol_zero _
    · have h1 : nlCount (q ++ ['\n']) = nlCount q + 1 := by
        rw [nlCount_append]
        have : nlCount ['\n'] = 1 := by decide
        omega
      have h2 : byteLen (q ++ ['\n']) = byteLen q + 1 := by
        rw [byteLen_append]
        have : byteLen ['\n'] = 1 := by decide
        omega
      have h3 : (q ++ ['\n']) ++ (p2 ++ suf) = q ++ '\n' :: (p2 ++ suf) := by simp
      rw [h1, h3, rol_start q (p2 ++ suf), h2]
  have hT1 : offset_of_line (p1 ++ (p2 ++ suf)) (nlCount p1 + 1) =
      rope_offset_of_line (nlCount p1 + 1) (p1 ++ (p2 ++ suf)) := by
    unfold offset_of_line
    rw [hlast, Nat.min_eq_left (by omega)]
  have hTo : byteLen p1 + byteLen p2 ≤
      offset_of_line (p1 ++ (p2 ++ suf)) (nlCount p1 + 1) := by
    rw [hT1]
    have h := rol_ge_prefix (p1 ++ p2) suf
    rw [List.append_assoc, byteLen_append, nlCount_append,
      nlCount_eq_zero p2 hnop2, Nat.add_zero] at h
    exact h
  have hTlen : offset_of_line (p1 ++ (p2 ++ suf)) (nlCount p1 + 1) ≤
      len (p1 ++ (p2 ++ suf)) := ool_le _ _
  have hstream : char_indices_iter (p1 ++ (p2 ++ suf)) (byteLen p1)
      (len (p1 ++ (p2 ++ suf))) = strCharIndices (p2 ++ suf) := by
    rw [char_indices_iter_eq]
    unfold slice_to_cow
    rw [Nat.min_eq_left (by omega), Nat.min_self, sliceBytes_append_left,
      sliceBytes_full (p2 ++ suf) _ (by rw [byteLen_append]; omega)]
  have holc : offset_to_line_col (p1 ++ (p2 ++ suf)) (byteLen p1 + byteLen p2) =
      (nlCount p1, byteLen p2) := by
    have hred : offset_to_line_col (p1 ++ (p2 ++ suf)) (byteLen p1 + byteLen p2) =
        (let X := min (byteLen p1 + byteLen p2) (len (p1 ++ (p2 ++ suf)))
         let line := line_of_offset (p1 ++ (p2 ++ suf)) X
         let line_start := offset_of_line (p1 ++ (p2 ++ suf)) line
         if X = line_start then (line, 0) else (line, X - line_start)) := rfl
    rw [hred]
    dsimp only
    rw [hmin, hlo, hls]
    split
    · have : byteLen p2 = 0 := by omega
      rw [this]
    · rw [Nat.add_sub_cancel_left]
  have hutf16 : offset_utf8_to_utf16 (strCharIndices (p2 ++ suf)) (byteLen p2) =
      utf16Len p2 := by
    have h := utf8_to_utf16_take (p2 ++ suf) p2.length 0
    rw [List.take_left, Nat.zero_add] at h
    exact h
  have hLbound : nlCount p1 < 2 ^ 32 := by
    have h1 := nlCount_le_length p1
    have h2 := length_le_byteLen p1
    omega
  have hUbound : utf16Len p2 < 2 ^ 32 := by
    have h1 := utf16Len_le_byteLen p2
    omega
  have hpos : offset_to_position (p1 ++ (p2 ++ suf)) (byteLen p1 + byteLen p2) =
      ⟨nlCount p1, utf16Len p2⟩ := by
    have hred : offset_to_position (p1 ++ (p2 ++ suf)) (byteLen p1 + byteLen p2) =
        ⟨(offset_to_line_col (p1 ++ (p2 ++ suf)) (byteLen p1 + byteLen p2)).1 % 2 ^ 32,
          offset_utf8_to_utf16
            (char_indices_iter (p1 ++ (p2 ++ suf))
              (offset_of_line (p1 ++ (p2 ++ suf))
                (offset_to_line_col (p1 ++ (p2 ++ suf)) (byteLen p1 + byteLen p2)).1)
              (len (p1 ++ (p2 ++ suf))))
            (offset_to_line_col (p1 ++ (p2 ++ suf)) (byteLen p1 + byteLen p2)).2
            % 2 ^ 32⟩ := rfl
    rw [hred, holc]
    dsimp only
    rw [hls, hstream, hutf16, Nat.mod_eq_of_lt hLbound, Nat.mod_eq_of_lt hUbound]
  have hcol : offset_utf16_to_utf8 (strCharIndices (p2 ++ suf)) (utf16Len p2) =
      byteLen p2 := by
    have h := utf16_to_utf8_take (p2 ++ suf) p2.length 0 0 0
    rw [List.take_left, Nat.zero_add, Nat.zero_add] at h
    exact h
  have hfinal : offset_of_line_col (p1 ++ (p2 ++ suf)) (nlCount p1) (byteLen p2) =
      byteLen p1 + byteLen p2 := by
    unfold offset_of_line_col
    rw [hls]
    have hslice : slice_to_cow (p1 ++ (p2 ++ suf)) (byteLen p1)
        (offset_of_line (p1 ++ (p2 ++ suf)) (nlCount p1 + 1)) =
        p2 ++ sliceBytes suf 0
          (offset_of_line (p1 ++ (p2 ++ suf)) (nlCount p1 + 1) - byteLen p1 - byteLen p2) := by
      unfold slice_to_cow
      rw [Nat.min_eq_left (by omega), Nat.min_eq_left hTlen, sliceBytes_append_left,
        sliceBytes_zero_of_le p2 suf _ (by omega), Nat.sub_sub]
    rw [hslice, olcGo_eq _ 0 _ _ (Nat.zero_le _), Nat.sub_zero,
      specColWalk_noNl p2 _ hnop2]
  rw [hpos]
  have hred2 : offset_of_position (p1 ++ (p2 ++ suf))
      (⟨nlCount p1, utf16Len p2⟩ : Position) =
      offset_of_line_col (p1 ++ (p2 ++ suf)) (nlCount p1)
        (offset_utf16_to_utf8
          (char_indices_iter (p1 ++ (p2 ++ suf))
            (offset_of_line (p1 ++ (p2 ++ suf)) (nlCount p1))
            (len (p1 ++ (p2 ++ suf))))
          (utf16Len p2)) := rfl
  rw [hred2, hls, hstream, hcol, hfinal]

/-- Claim C2 (amended): for every document whose total byte length is
below 2^32 (so that the `u32` protocol position fields are exact) and
every valid offset `o` — an offset at most the length lying on a
codepoint boundary — converting to a protocol position and back is the
identity: `offset_of_position (offset_to_position o) = o`, including on
lines containing characters that need UTF-16 surrogate pairs. -/
theorem claim_C2 (doc : List Char) (o : Nat) (hb : IsBoundary doc o)
    (hlen : byteLen doc < 2 ^ 32) :
    offset_of_position doc (offset_to_position doc o) = o := by
  obtain ⟨k, hk, hfb⟩ := floorBoundary_split doc o
  have hbb : floorBoundary doc o = o := hb
  have ho : o = byteLen (doc.take k) := by omega
  obtain ⟨p1, p2, hsplit, hnop2, hp1⟩ := split_last_nl (doc.take k)
  have hdoc : doc = p1 ++ (p2 ++ doc.drop k) := by
    conv_lhs => rw [← List.take_append_drop k doc]
    rw [hsplit, List.append_assoc]
  have ho2 : o = byteLen p1 + byteLen p2 := by
    rw [ho, hsplit, byteLen_append]
  have haux := roundtrip_aux p1 p2 (doc.drop k) hnop2 hp1 (by rw [← hdoc]; exact hlen)
  calc offset_of_position doc (offset_to_position doc o)
      = offset_of_position (p1 ++ (p2 ++ doc.drop k))
          (offset_to_position (p1 ++ (p2 ++ doc.drop k)) (byteLen p1 + byteLen p2)) := by
        rw [← hdoc, ← ho2]
    _ = byteLen p1 + byteLen p2 := haux
    _ = o := ho2.symm

/-- Claim C2 witness: the round trip applied to the document
"a𐐀\né" — whose first line contains the character U+10400, a UTF-16
surrogate pair — at the valid offset 5 (the boundary after that
character). -/
theorem claim_C2_witness :
    IsBoundary ['a', '𐐀', '\n', 'é'] 5
    ∧ byteLen ['a', '𐐀', '\n', 'é'] < 2 ^ 32
    ∧ offset_of_position ['a', '𐐀', '\n', 'é']
        (offset_to_position ['a', '𐐀', '\n', 'é'] 5) = 5 :=
  ⟨by decide, by decide, claim_C2 ['a', '𐐀', '\n', 'é'] 5 (by decide) (by decide)⟩

/-- Claim C2 (counterexample): on the document made of 2^32 newline
characters, the offset 2^32 is a valid codepoint boundary, but the
`u32` cast of the line number wraps (`2^32 as u32 == 0`), so the round
trip returns offset 0 instead of 2^32 — the unbounded claim fails. -/
theorem claim_C2_counterexample :
    IsBoundary hugeDoc (2 ^ 32)
    ∧ offset_of_position hugeDoc (offset_to_position hugeDoc (2 ^ 32)) = 0
    ∧ (2 ^ 32 : Nat) ≠ 0 := by
  have hbl : byteLen hugeDoc = 2 ^ 32 := byteLen_replicate_nl (2 ^ 32)
  have hnl : nlCount hugeDoc = 2 ^ 32 := nlCount_replicate (2 ^ 32)
  have hlenHuge : len hugeDoc = 2 ^ 32 := by unfold len; exact hbl
  have hb : IsBoundary hugeDoc (2 ^ 32) := by
    show floorBoundary hugeDoc (2 ^ 32) = 2 ^ 32
    calc floorBoundary hugeDoc (2 ^ 32)
        = floorBoundary hugeDoc (byteLen hugeDoc) := by rw [hbl]
      _ = byteLen hugeDoc := floorBoundary_byteLen _
      _ = 2 ^ 32 := hbl
  have hlast : last_line hugeDoc = 2 ^ 32 := by rw [last_line_eq, hnl]
  have hlo : line_of_offset hugeDoc (2 ^ 32) = 2 ^ 32 := by
    rw [line_of_offset_red, hlenHuge, Nat.min_self,
      show floorBoundary hugeDoc (2 ^ 32) = 2 ^ 32 from hb]
    calc rope_line_of_offset hugeDoc (2 ^ 32)
        = rope_line_of_offset hugeDoc (byteLen hugeDoc) := by rw [hbl]
      _ = nlCount hugeDoc := rlo_full _
      _ = 2 ^ 32 := hnl
  have hofl : offset_of_line hugeDoc (2 ^ 32) = 2 ^ 32 := by
    unfold offset_of_line
    rw [hlast, Nat.min_eq_left (Nat.le_add_right _ _)]
    exact rol_replicate (2 ^ 32) (2 ^ 32) (Nat.le_refl _)
  have holc : offset_to_line_col hugeDoc (2 ^ 32) = (2 ^ 32, 0) := by
    rw [offset_to_line_col_red, hlenHuge, Nat.min_self, hlo, hofl, if_pos rfl]
  have hpos : offset_to_position hugeDoc (2 ^ 32) = ⟨0, 0⟩ := by
    rw [offset_to_position_red, holc,
      show ((2 ^ 32 : Nat), (0 : Nat)).1 = 2 ^ 32 from rfl,
      show ((2 ^ 32 : Nat), (0 : Nat)).2 = 0 from rfl,
      o8to16_zero, Nat.mod_self, Nat.zero_mod]
  have hofl0 : offset_of_line hugeDoc 0 = 0 := by
    unfold offset_of_line
    rw [Nat.min_eq_left (Nat.zero_le _)]
    exact rol_zero _
  have h1le : (1 : Nat) ≤ 2 ^ 32 := Nat.one_le_two_pow
  have hofl1 : offset_of_line hugeDoc 1 = 1 := by
    unfold offset_of_line
    rw [hlast, Nat.min_eq_left (by omega)]
    exact rol_replicate (2 ^ 32) 1 h1le
  have hslice01 : sliceBytes hugeDoc 0 1 = ['\n'] := by
    have h1' : hugeDoc.take 1 = ['\n'] := by
      show (List.replicate (2 ^ 32) '\n').take 1 = ['\n']
      rw [List.take_replicate, show min 1 (2 ^ 32) = 1 from Nat.min_eq_left h1le]
      rfl
    have h0 : byteLen (hugeDoc.take 0) = 0 := by rw [List.take_zero]; rfl
    have h1 : byteLen (hugeDoc.take 1) = 1 := by rw [h1']; decide
    have h := sliceBytes_take_drop hugeDoc 0 1 (by omega)
    rw [h0, h1, h1'] at h
    simpa using h
  have hback : offset_of_position hugeDoc ⟨0, 0⟩ = 0 := by
    rw [offset_of_position_red,
      show (⟨0, 0⟩ : Position).line = 0 from rfl,
      show (⟨0, 0⟩ : Position).character = 0 from rfl,
      o16to8_zero]
    unfold offset_of_line_col
    rw [hofl0, hofl1]
    unfold slice_to_cow
    rw [hlenHuge, Nat.min_eq_left (Nat.zero_le _),
      Nat.min_eq_left h1le, hslice01, olcGo_cons, if_pos rfl]
  exact ⟨hb, by rw [hpos]; exact hback, (Nat.two_pow_pos 32).ne'⟩

end Lapce
